import Mathlib

/-!
Verification of `src/main.py`: two binary-tree builders (a recursive one
returning nested single-key dictionaries and an iterative, queue-based one
returning a flat list), plus the benchmark harness that reduces a list of
trial durations to its minimum.

Embedding notes:
- A Python dict of the shape `{root: children_list}` (the only shape the
  recursive builder produces) is the inductive `RTree`: a node value together
  with a list of child subtrees (empty for a leaf).
- The iterative builder's output list holds a bare integer at index 0 and
  `[value, [], []]` triples afterwards; `IterEntry` has one constructor for
  each shape.
- Python ints are `Int`.  The recursive builder's `height` is a `Nat`
  (its contract requires `height >= 0`; a negative height never reaches the
  base case in the source).  The iterative builder's `height` is an `Int`,
  since the source terminates for negative heights as well.
- In the source, the recursive self-calls `gen_bin_tree_recursive(height - 1,
  l_b(root))` omit the function arguments, so Python substitutes the default
  lambdas `x * 3` and `x - 4` for all levels below the first.  The embedding
  passes `default_l_b`/`default_r_b` explicitly at exactly those call sites.
- The `while queue:` loop is the tail-recursive `iterLoop` on the pair
  (queue, tree); `queue.pop(0)` is matching on the head, `append` is `++` at
  the back.  Termination is by the total weight `queueWeight` (the number of
  pops still to come).
- `benchmark` calls `timeit.repeat` (external timing side effect) and returns
  `min(times)`.  The embedding takes the list of trial durations produced by
  the timing calls as input, models each duration as a rational, and returns
  the minimum; `none` models Python's `min([])` exception.
-/

/-- Default left-child function of both builders: the lambda `x * 3`
(src/main.py lines 6 and 30). -/
def default_l_b (x : Int) : Int := x * 3

/-- Default right-child function of both builders: the lambda `x - 4`
(src/main.py lines 7 and 31). -/
def default_r_b (x : Int) : Int := x - 4

/-- Return shape of the recursive builder: a single-key dict `{value:
children}` where `children` is a list of subtrees (src/main.py lines 20 and
25-27). -/
inductive RTree where
  | node (value : Int) (children : List RTree) : RTree

/-- Embedding of `gen_bin_tree_recursive` (src/main.py lines 6-27).
Base case `height == 0` returns `{root: []}`; otherwise the left and right
subtrees are built at `height - 1` from `l_b(root)` and `r_b(root)`.  The
self-calls on lines 22-23 pass only two arguments, so the default lambdas
are used below the first level; the embedding writes those defaults
explicitly. -/
def gen_bin_tree_recursive : Nat → Int → (Int → Int) → (Int → Int) → RTree
  | 0, root, _, _ => RTree.node root []
  | height + 1, root, l_b, r_b =>
      let left_leaf := gen_bin_tree_recursive height (l_b root) default_l_b default_r_b
      let right_leaf := gen_bin_tree_recursive height (r_b root) default_l_b default_r_b
      RTree.node root [left_leaf, right_leaf]

/-- Entries of the iterative builder's output list: the seed `tree = [root]`
stores the bare root value (src/main.py line 44), and the loop appends
triples `[value, [], []]` (lines 52-53). -/
inductive IterEntry where
  | bare (value : Int)
  | triple (value : Int) (leftPlaceholder rightPlaceholder : List Int)

/-- Node value carried by an output entry. -/
def IterEntry.value : IterEntry → Int
  | .bare v => v
  | .triple v _ _ => v

/-- Node values of an iterative output list, in order. -/
def iterValues (tree : List IterEntry) : List Int := tree.map IterEntry.value

/-- Number of pops of the loop caused by one queue entry `(value, h)`:
the full subtree of height `h` is expanded when `h > 0`, a single pop
happens when `h <= 0`.  Used as the termination measure. -/
def entryWeight (e : Int × Int) : Nat :=
  if e.2 > 0 then 2 ^ (e.2.toNat + 1) - 1 else 1

/-- Total number of pops still to come for a whole queue. -/
def queueWeight (q : List (Int × Int)) : Nat := (q.map entryWeight).sum

theorem entryWeight_of_nonneg (x : Int) (h : Int) (hh : 0 ≤ h) :
    entryWeight (x, h) = 2 ^ (h.toNat + 1) - 1 := by
  unfold entryWeight
  rcases lt_or_eq_of_le hh with hpos | hzero
  · simp [hpos]
  · simp [← hzero]

theorem entryWeight_pos (e : Int × Int) : 0 < entryWeight e := by
  unfold entryWeight
  split
  · have : 1 < 2 ^ (e.2.toNat + 1) := Nat.one_lt_two_pow_iff.mpr (by omega)
    omega
  · omega

theorem children_weight_lt (x y current : Int) (h : Int) (hpos : h > 0) :
    entryWeight (x, h - 1) + entryWeight (y, h - 1) < entryWeight (current, h) := by
  have h1 : (0 : Int) ≤ h - 1 := by omega
  have hx := entryWeight_of_nonneg x (h - 1) h1
  have hy := entryWeight_of_nonneg y (h - 1) h1
  have hc := entryWeight_of_nonneg current h (by omega)
  have htn : (h - 1).toNat + 1 = h.toNat := by omega
  have hlt : 1 < 2 ^ h.toNat := Nat.one_lt_two_pow_iff.mpr (by omega)
  have hsucc : 2 ^ (h.toNat + 1) = 2 ^ h.toNat + 2 ^ h.toNat := by
    rw [pow_succ]; omega
  rw [hx, hy, hc, htn]
  omega

/-- Embedding of the `while queue:` loop of `gen_bin_tree_iterative`
(src/main.py lines 47-57) as a tail recursion on the pair (queue, tree).
Popping the front entry `(current, h)` with `h > 0` appends the two triples
`[left, [], []]`, `[right, [], []]` to `tree` (left first) and pushes
`(left, h - 1)`, `(right, h - 1)` onto the back of the queue; with
`h <= 0` it only pops. -/
def iterLoop (l_b r_b : Int → Int) : List (Int × Int) → List IterEntry → List IterEntry
  | [], tree => tree
  | (current, h) :: queue, tree =>
    if h > 0 then
      let left := l_b current
      let right := r_b current
      iterLoop l_b r_b (queue ++ [(left, h - 1), (right, h - 1)])
        (tree ++ [IterEntry.triple left [] [], IterEntry.triple right [] []])
    else
      iterLoop l_b r_b queue tree
termination_by q _ => queueWeight q
decreasing_by
  · simp only [queueWeight, List.map_append, List.map_cons, List.map_nil, List.sum_append,
      List.sum_cons, List.sum_nil]
    have := children_weight_lt (l_b current) (r_b current) current h (by assumption)
    omega
  · simp only [queueWeight, List.map_cons, List.sum_cons]
    have := entryWeight_pos (current, h)
    omega

/-- Embedding of `gen_bin_tree_iterative` (src/main.py lines 30-57): output
seeded with the bare root, queue seeded with `(root, height)`, then the
worklist loop. -/
def gen_bin_tree_iterative (height : Int) (root : Int)
    (l_b r_b : Int → Int) : List IterEntry :=
  iterLoop l_b r_b [(root, height)] [IterEntry.bare root]

/-- Number of pops (loop iterations) performed by the worklist loop of
`gen_bin_tree_iterative`, instrumenting the same recursion as `iterLoop`. -/
def iterLoopPops (l_b r_b : Int → Int) : List (Int × Int) → Nat
  | [] => 0
  | (current, h) :: queue =>
    if h > 0 then
      1 + iterLoopPops l_b r_b (queue ++ [(l_b current, h - 1), (r_b current, h - 1)])
    else
      1 + iterLoopPops l_b r_b queue
termination_by q => queueWeight q
decreasing_by
  · simp only [queueWeight, List.map_append, List.map_cons, List.map_nil, List.sum_append,
      List.sum_cons, List.sum_nil]
    have := children_weight_lt (l_b current) (r_b current) current h (by assumption)
    omega
  · simp only [queueWeight, List.map_cons, List.sum_cons]
    have := entryWeight_pos (current, h)
    omega

mutual

/-- Node values of a recursive tree, root first, depth first. -/
def RTree.values : RTree → List Int
  | .node v ts => v :: RTree.valuesList ts

/-- Node values of a list of recursive trees, concatenated. -/
def RTree.valuesList : List RTree → List Int
  | [] => []
  | t :: ts => RTree.values t ++ RTree.valuesList ts

end

mutual

/-- Subtrees sitting exactly `d` levels below the root of a tree. -/
def RTree.atDepth : Nat → RTree → List RTree
  | 0, t => [t]
  | d + 1, .node _ ts => RTree.atDepthList d ts

/-- Subtrees sitting exactly `d` levels below the roots of the given trees. -/
def RTree.atDepthList : Nat → List RTree → List RTree
  | _, [] => []
  | d, t :: ts => RTree.atDepth d t ++ RTree.atDepthList d ts

end

/-- Values strictly below a node of value `v` in a tree of height `h` when
both child functions `l_b`, `r_b` are applied at every level (the iterative
builder forwards its functions to every queue entry). -/
def below (l_b r_b : Int → Int) (v : Int) : Nat → List Int
  | 0 => []
  | h + 1 =>
      l_b v :: r_b v ::
        (below l_b r_b (l_b v) h ++ below l_b r_b (r_b v) h)

/-- Values strictly below a queue entry `(v, h)` with integer remaining
height `h`: nothing when `h <= 0`. -/
def belowI (l_b r_b : Int → Int) (v : Int) (h : Int) : List Int :=
  if h > 0 then below l_b r_b v h.toNat else []

/-- Embedding of `benchmark` (src/main.py lines 60-75).  The call
`timeit.repeat(lambda: func(height, root), number=number, repeat=repeat)` is
an external timing side effect producing a list of trial durations; the
embedding takes that list as input, one rational per trial, and returns
`min(times)`.  Python's `min` raises on an empty list, modelled as `none`. -/
def benchmark (times : List ℚ) : Option ℚ := times.min?

/-! ## Helper lemmas -/

theorem belowI_of_nonneg (l_b r_b : Int → Int) (v : Int) (h : Int) (hh : 0 ≤ h) :
    belowI l_b r_b v h = below l_b r_b v h.toNat := by
  unfold belowI
  rcases lt_or_eq_of_le hh with hpos | hzero
  · simp [hpos]
  · simp [← hzero, below]

theorem belowI_pos (l_b r_b : Int → Int) (v : Int) (h : Int) (hpos : h > 0) :
    belowI l_b r_b v h =
      l_b v :: r_b v ::
        (belowI l_b r_b (l_b v) (h - 1) ++ belowI l_b r_b (r_b v) (h - 1)) := by
  have h1 : (0 : Int) ≤ h - 1 := by omega
  have hk : h.toNat = (h - 1).toNat + 1 := by omega
  rw [belowI_of_nonneg _ _ _ _ (by omega : (0 : Int) ≤ h),
    belowI_of_nonneg _ _ _ _ h1, belowI_of_nonneg _ _ _ _ h1, hk, below]

theorem belowI_nonpos (l_b r_b : Int → Int) (v : Int) (h : Int) (hle : ¬h > 0) :
    belowI l_b r_b v h = [] := by
  unfold belowI
  simp [hle]

/-- Values appended by the worklist loop, up to permutation: the loop adds
exactly the strict descendants of every queued entry to the running output. -/
theorem iterLoop_values_perm (l_b r_b : Int → Int) (q : List (Int × Int))
    (tree : List IterEntry) :
    (iterValues (iterLoop l_b r_b q tree)).Perm
      (iterValues tree ++ (q.map fun e => belowI l_b r_b e.1 e.2).flatten) := by
  induction q, tree using iterLoop.induct l_b r_b with
  | case1 tree => simp [iterLoop]
  | case2 current h queue tree hpos left right ih =>
      have hl : left = l_b current := rfl
      have hr : right = r_b current := rfl
      rw [iterLoop]
      simp only [hpos, if_true]
      refine ih.trans ?_
      rw [List.perm_iff_count]
      intro a
      simp only [iterValues, List.map_append, List.map_cons, List.map_nil, List.flatten_cons,
        List.flatten_append, List.flatten_nil, List.count_append, List.count_cons,
        List.count_nil, List.append_nil, IterEntry.value,
        belowI_pos l_b r_b current h hpos, hl, hr]
      omega
  | case3 current h queue tree hneg ih =>
      rw [iterLoop]
      simp only [hneg, if_false]
      refine ih.trans ?_
      rw [List.perm_iff_count]
      intro a
      simp [belowI_nonpos l_b r_b current h hneg]

/-- Values of the recursive builder's output, up to permutation: the root
followed by its strict descendants under the default child functions. -/
theorem rec_values_perm : ∀ (h : Nat) (v : Int),
    ((gen_bin_tree_recursive h v default_l_b default_r_b).values).Perm
      (v :: below default_l_b default_r_b v h)
  | 0, v => by
      simp [gen_bin_tree_recursive, RTree.values, RTree.valuesList, below]
  | h + 1, v => by
      have ihl := rec_values_perm h (default_l_b v)
      have ihr := rec_values_perm h (default_r_b v)
      rw [List.perm_iff_count]
      intro a
      simp only [gen_bin_tree_recursive, RTree.values, RTree.valuesList, below,
        List.count_cons, List.count_append, List.count_nil, ihl.count_eq, ihr.count_eq]
      omega

theorem below_length : ∀ (h : Nat) (l_b r_b : Int → Int) (v : Int),
    (below l_b r_b v h).length = 2 ^ (h + 1) - 2
  | 0, l_b, r_b, v => by simp [below]
  | h + 1, l_b, r_b, v => by
      have ihl := below_length h l_b r_b (l_b v)
      have ihr := below_length h l_b r_b (r_b v)
      have h2 : 2 ≤ 2 ^ (h + 1) := by
        have : 1 < 2 ^ (h + 1) := Nat.one_lt_two_pow_iff.mpr (by omega)
        omega
      have hsucc : 2 ^ (h + 1 + 1) = 2 ^ (h + 1) + 2 ^ (h + 1) := by
        rw [pow_succ]; omega
      simp only [below, List.length_cons, List.length_append, ihl, ihr]
      omega

theorem rec_values_length : ∀ (h : Nat) (v : Int) (l_b r_b : Int → Int),
    ((gen_bin_tree_recursive h v l_b r_b).values).length = 2 ^ (h + 1) - 1
  | 0, v, l_b, r_b => by simp [gen_bin_tree_recursive, RTree.values, RTree.valuesList]
  | h + 1, v, l_b, r_b => by
      have ihl := rec_values_length h (l_b v) default_l_b default_r_b
      have ihr := rec_values_length h (r_b v) default_l_b default_r_b
      have h2 : 2 ≤ 2 ^ (h + 1) := by
        have : 1 < 2 ^ (h + 1) := Nat.one_lt_two_pow_iff.mpr (by omega)
        omega
      have hsucc : 2 ^ (h + 1 + 1) = 2 ^ (h + 1) + 2 ^ (h + 1) := by
        rw [pow_succ]; omega
      simp only [gen_bin_tree_recursive, RTree.values, RTree.valuesList,
        List.length_cons, List.length_append, List.length_nil, ihl, ihr]
      omega

/-- Shape of everything the worklist loop appends: only triples with empty
placeholders are ever added to the output. -/
theorem iterLoop_shape (l_b r_b : Int → Int) (q : List (Int × Int))
    (tree : List IterEntry) :
    ∃ rest, iterLoop l_b r_b q tree = tree ++ rest ∧
      ∀ e ∈ rest, ∃ w, e = IterEntry.triple w [] [] := by
  induction q, tree using iterLoop.induct l_b r_b with
  | case1 tree => exact ⟨[], by simp [iterLoop], by simp⟩
  | case2 current h queue tree hpos left right ih =>
      obtain ⟨rest, hEq, hAll⟩ := ih
      refine ⟨[IterEntry.triple left [] [], IterEntry.triple right [] []] ++ rest, ?_, ?_⟩
      · rw [iterLoop]
        simp only [hpos, if_true]
        rw [hEq, List.append_assoc]
      · intro e he
        rcases List.mem_append.mp he with hin | hin
        · simp only [List.mem_cons, List.not_mem_nil, or_false] at hin
          rcases hin with rfl | rfl
          · exact ⟨left, rfl⟩
          · exact ⟨right, rfl⟩
        · exact hAll e hin
  | case3 current h queue tree hneg ih =>
      obtain ⟨rest, hEq, hAll⟩ := ih
      refine ⟨rest, ?_, hAll⟩
      rw [iterLoop]
      simp only [hneg, if_false]
      exact hEq

/-- Number of pops of the loop equals the total weight of the queue. -/
theorem iterLoopPops_eq (l_b r_b : Int → Int) (q : List (Int × Int)) :
    iterLoopPops l_b r_b q = queueWeight q := by
  induction q using iterLoopPops.induct l_b r_b with
  | case1 => simp [iterLoopPops, queueWeight]
  | case2 current h queue hpos ih =>
      rw [iterLoopPops]
      simp only [hpos, if_true]
      rw [ih]
      simp only [queueWeight, List.map_append, List.map_cons, List.map_nil,
        List.sum_append, List.sum_cons, List.sum_nil]
      have hc := children_weight_lt (l_b current) (r_b current) current h hpos
      have h1 : (0 : Int) ≤ h - 1 := by omega
      have hx := entryWeight_of_nonneg (l_b current) (h - 1) h1
      have hy := entryWeight_of_nonneg (r_b current) (h - 1) h1
      have hcur := entryWeight_of_nonneg current h (by omega)
      have htn : (h - 1).toNat + 1 = h.toNat := by omega
      have hlt : 1 < 2 ^ h.toNat := Nat.one_lt_two_pow_iff.mpr (by omega)
      have hsucc : 2 ^ (h.toNat + 1) = 2 ^ h.toNat + 2 ^ h.toNat := by
        rw [pow_succ]; omega
      rw [hx, hy, hcur, htn]
      omega
  | case3 current h queue hneg ih =>
      rw [iterLoopPops]
      simp only [hneg, if_false]
      rw [ih]
      simp only [queueWeight, List.map_cons, List.sum_cons]
      have : entryWeight (current, h) = 1 := by
        unfold entryWeight
        simp [hneg]
      omega

/-! ## Claims -/

/-- C1: for every height >= 0 and every integer root, with the default
child-value functions, the multiset of node values of the recursive
builder's output equals the multiset of node values of the iterative
builder's output. -/
theorem claim_C1_multiset_equivalence (height : Nat) (root : Int) :
    (((gen_bin_tree_recursive height root default_l_b default_r_b).values : List Int) :
        Multiset Int) =
      ((iterValues (gen_bin_tree_iterative height root default_l_b default_r_b) : List Int) :
        Multiset Int) := by
  rw [Multiset.coe_eq_coe]
  refine (rec_values_perm height root).trans ?_
  have hb : belowI default_l_b default_r_b root (height : Int) =
      below default_l_b default_r_b root height := by
    rw [belowI_of_nonneg _ _ _ _ (Int.natCast_nonneg height)]
    norm_num
  have hloop := iterLoop_values_perm default_l_b default_r_b [((root : Int), (height : Int))]
    [IterEntry.bare root]
  unfold gen_bin_tree_iterative
  refine List.Perm.symm (hloop.trans ?_)
  simp [iterValues, IterEntry.value, hb]

/-- C2 (as stated) is false: the recursive self-calls do not forward the
supplied child functions, so with non-default functions the left subtree is
not the builder's result for `(height - 1, leftFn root, leftFn, rightFn)`.
Counterexample at `height = 2`, `root = 1`, both functions the identity. -/
theorem claim_C2_counterexample :
    gen_bin_tree_recursive 2 1 (fun x => x) (fun x => x) ≠
      RTree.node 1
        [gen_bin_tree_recursive 1 1 (fun x => x) (fun x => x),
         gen_bin_tree_recursive 1 1 (fun x => x) (fun x => x)] := by
  simp [gen_bin_tree_recursive, default_l_b, default_r_b]

/-- C2 (amended): for every height >= 1, root and child functions, the
recursive builder returns `{root: [leftSubtree, rightSubtree]}` where the
subtrees are its results for `height - 1` on `l_b root` and `r_b root` built
with the DEFAULT child functions (the self-calls omit `l_b`, `r_b`). -/
theorem claim_C2_amended (height : Nat) (root : Int) (l_b r_b : Int → Int)
    (h1 : 1 ≤ height) :
    gen_bin_tree_recursive height root l_b r_b =
      RTree.node root
        [gen_bin_tree_recursive (height - 1) (l_b root) default_l_b default_r_b,
         gen_bin_tree_recursive (height - 1) (r_b root) default_l_b default_r_b] := by
  obtain ⟨k, rfl⟩ : ∃ k, height = k + 1 := ⟨height - 1, by omega⟩
  rfl

theorem claim_C2_amended_witness :
    1 ≤ 1 ∧
      gen_bin_tree_recursive 1 7 default_l_b default_r_b =
        RTree.node 7
          [gen_bin_tree_recursive (1 - 1) (default_l_b 7) default_l_b default_r_b,
           gen_bin_tree_recursive (1 - 1) (default_r_b 7) default_l_b default_r_b] :=
  ⟨by decide, claim_C2_amended 1 7 default_l_b default_r_b (by decide)⟩

/-- C3: for every height >= 0 and integer root (default child functions),
both builders produce exactly `2 ^ (height + 1) - 1` node values. -/
theorem claim_C3_node_count (height : Nat) (root : Int) :
    ((gen_bin_tree_recursive height root default_l_b default_r_b).values).length =
        2 ^ (height + 1) - 1 ∧
      (iterValues (gen_bin_tree_iterative height root default_l_b default_r_b)).length =
        2 ^ (height + 1) - 1 := by
  refine ⟨rec_values_length height root default_l_b default_r_b, ?_⟩
  have hb : belowI default_l_b default_r_b root (height : Int) =
      below default_l_b default_r_b root height := by
    rw [belowI_of_nonneg _ _ _ _ (Int.natCast_nonneg height)]
    norm_num
  have hloop := (iterLoop_values_perm default_l_b default_r_b [((root : Int), (height : Int))]
    [IterEntry.bare root]).length_eq
  unfold gen_bin_tree_iterative
  rw [hloop]
  simp only [iterValues, List.map_cons, List.map_nil, List.flatten_cons, List.flatten_nil,
    List.length_append, List.length_cons, List.length_nil, List.append_nil, hb,
    below_length height default_l_b default_r_b root]
  have h2 : 2 ≤ 2 ^ (height + 1) := by
    have : 1 < 2 ^ (height + 1) := Nat.one_lt_two_pow_iff.mpr (by omega)
    omega
  omega

/-- C4: for every height >= 0 and integer root (default child functions),
the iterative builder's output starts with the bare root value and every
later entry is a triple `[value, [], []]` with empty placeholders; and each
pop of an entry with positive remaining height appends the left then the
right child triple and pushes both children, heights decreased by 1, onto
the back of the queue. -/
theorem claim_C4_output_shape (height : Int) (root : Int) (h0 : 0 ≤ height) :
    (∃ rest,
        gen_bin_tree_iterative height root default_l_b default_r_b =
          IterEntry.bare root :: rest ∧
        ∀ e ∈ rest, ∃ w, e = IterEntry.triple w [] []) ∧
      ∀ (current h : Int) (queue : List (Int × Int)) (tree : List IterEntry), h > 0 →
        iterLoop default_l_b default_r_b ((current, h) :: queue) tree =
          iterLoop default_l_b default_r_b
            (queue ++ [(default_l_b current, h - 1), (default_r_b current, h - 1)])
            (tree ++ [IterEntry.triple (default_l_b current) [] [],
              IterEntry.triple (default_r_b current) [] []]) := by
  constructor
  · obtain ⟨rest, hEq, hAll⟩ :=
      iterLoop_shape default_l_b default_r_b [(root, height)] [IterEntry.bare root]
    refine ⟨rest, ?_, hAll⟩
    unfold gen_bin_tree_iterative
    rw [hEq, List.singleton_append]
  · intro current h queue tree hpos
    rw [iterLoop]
    simp only [hpos, if_true]

theorem claim_C4_output_shape_witness :
    (0 : Int) ≤ 1 ∧
      ((∃ rest,
          gen_bin_tree_iterative 1 7 default_l_b default_r_b =
            IterEntry.bare 7 :: rest ∧
          ∀ e ∈ rest, ∃ w, e = IterEntry.triple w [] []) ∧
        ∀ (current h : Int) (queue : List (Int × Int)) (tree : List IterEntry), h > 0 →
          iterLoop default_l_b default_r_b ((current, h) :: queue) tree =
            iterLoop default_l_b default_r_b
              (queue ++ [(default_l_b current, h - 1), (default_r_b current, h - 1)])
              (tree ++ [IterEntry.triple (default_l_b current) [] [],
                IterEntry.triple (default_r_b current) [] []])) :=
  ⟨by decide, claim_C4_output_shape 1 7 (by decide)⟩

/-- C5: the recursive builder at height 0 returns `{root: []}` for every
root and child functions, and every node sitting at the bottom level (the
nodes introduced by the `height == 0` base case) has an empty child list. -/
theorem claim_C5_leaf_invariant :
    (∀ (root : Int) (l_b r_b : Int → Int),
        gen_bin_tree_recursive 0 root l_b r_b = RTree.node root []) ∧
      ∀ (height : Nat) (root : Int) (l_b r_b : Int → Int) (t : RTree),
        t ∈ RTree.atDepth height (gen_bin_tree_recursive height root l_b r_b) →
        ∃ w, t = RTree.node w [] := by
  constructor
  · intro root l_b r_b
    rfl
  · intro height
    induction height with
    | zero =>
        intro root l_b r_b t ht
        simp only [gen_bin_tree_recursive, RTree.atDepth, List.mem_singleton] at ht
        exact ⟨root, ht⟩
    | succ h ih =>
        intro root l_b r_b t ht
        simp only [gen_bin_tree_recursive, RTree.atDepth, RTree.atDepthList,
          List.append_nil] at ht
        rcases List.mem_append.mp ht with hin | hin
        · exact ih (l_b root) default_l_b default_r_b t hin
        · exact ih (r_b root) default_l_b default_r_b t hin

theorem claim_C5_leaf_invariant_witness :
    gen_bin_tree_recursive 0 7 default_l_b default_r_b = RTree.node 7 [] ∧
      (RTree.node 21 [] ∈
          RTree.atDepth 1 (gen_bin_tree_recursive 1 7 default_l_b default_r_b) ∧
        ∃ w, RTree.node 21 [] = RTree.node w []) := by
  have hmem : RTree.node 21 [] ∈
      RTree.atDepth 1 (gen_bin_tree_recursive 1 7 default_l_b default_r_b) := by
    simp [gen_bin_tree_recursive, RTree.atDepth, RTree.atDepthList, default_l_b]
  exact ⟨claim_C5_leaf_invariant.1 7 default_l_b default_r_b,
    hmem, claim_C5_leaf_invariant.2 1 7 default_l_b default_r_b (RTree.node 21 []) hmem⟩

/-- C6: concrete scenario with the default child functions: the recursive
builder gives `{7: []}` at height 0 and `{7: [{21: []}, {3: []}]}` at height
1; the iterative builder at height 1 gives `[7, [21, [], []], [3, [], []]]`. -/
theorem claim_C6_concrete_scenario :
    gen_bin_tree_recursive 0 7 default_l_b default_r_b = RTree.node 7 [] ∧
      gen_bin_tree_recursive 1 7 default_l_b default_r_b =
        RTree.node 7 [RTree.node 21 [], RTree.node 3 []] ∧
      gen_bin_tree_iterative 1 7 default_l_b default_r_b =
        [IterEntry.bare 7, IterEntry.triple 21 [] [], IterEntry.triple 3 [] []] :=
  ⟨rfl, rfl, by simp [gen_bin_tree_iterative, iterLoop, default_l_b, default_r_b]⟩

/-- C7: the worklist loop of the iterative builder, started on
`[(root, height)]` with `height >= 0`, performs exactly
`2 ^ (height + 1) - 1` pops before the queue drains. -/
theorem claim_C7_pop_count (height : Int) (root : Int) (h0 : 0 ≤ height) :
    iterLoopPops default_l_b default_r_b [(root, height)] = 2 ^ (height.toNat + 1) - 1 := by
  rw [iterLoopPops_eq]
  simp only [queueWeight, List.map_cons, List.map_nil, List.sum_cons, List.sum_nil]
  rw [entryWeight_of_nonneg root height h0]
  omega

theorem claim_C7_pop_count_witness :
    (0 : Int) ≤ 2 ∧
      iterLoopPops default_l_b default_r_b [(7, 2)] = 2 ^ ((2 : Int).toNat + 1) - 1 :=
  ⟨by decide, claim_C7_pop_count 2 7 (by decide)⟩

/-- C8: for every nonempty list of nonnegative trial durations produced by
the timing calls, the benchmark returns some value that is nonnegative and
is less than or equal to every individual trial duration (it is the minimum
of the trials). -/
theorem claim_C8_benchmark_min (times : List ℚ) (hne : times ≠ [])
    (hnn : ∀ t ∈ times, 0 ≤ t) :
    ∃ m, benchmark times = some m ∧ 0 ≤ m ∧ ∀ t ∈ times, m ≤ t := by
  have anti : Std.Antisymm fun x1 x2 : ℚ => x1 ≤ x2 := ⟨@le_antisymm ℚ _⟩
  unfold benchmark
  rcases hmin : times.min? with _ | m
  · exact absurd (List.min?_eq_none_iff.mp hmin) hne
  · have hspec := (List.min?_eq_some_iff (fun a => le_refl a) (fun a b => min_choice a b)
      (fun a b c => le_min_iff)).mp hmin
    exact ⟨m, rfl, hnn m hspec.1, hspec.2⟩

theorem claim_C8_benchmark_min_witness :
    (([(3 : ℚ), 1, 2] ≠ []) ∧ ∀ t ∈ [(3 : ℚ), 1, 2], 0 ≤ t) ∧
      ∃ m, benchmark [(3 : ℚ), 1, 2] = some m ∧ 0 ≤ m ∧ ∀ t ∈ [(3 : ℚ), 1, 2], m ≤ t := by
  have h1 : ([(3 : ℚ), 1, 2] ≠ []) := by simp
  have h2 : ∀ t ∈ [(3 : ℚ), 1, 2], 0 ≤ t := by
    intro t ht
    simp only [List.mem_cons, List.not_mem_nil, or_false] at ht
    rcases ht with rfl | rfl | rfl <;> norm_num
  exact ⟨⟨h1, h2⟩, claim_C8_benchmark_min [(3 : ℚ), 1, 2] h1 h2⟩

/-- C9: for every height >= 2, root and supplied child functions, the
recursive builder applies those functions only to the root value: the two
subtrees are built with the default functions `x * 3` and `x - 4`, because
the self-calls do not forward the supplied functions. -/
theorem claim_C9_defaults_below_root (height : Nat) (root : Int)
    (l_b r_b : Int → Int) (h2 : 2 ≤ height) :
    gen_bin_tree_recursive height root l_b r_b =
      RTree.node root
        [gen_bin_tree_recursive (height - 1) (l_b root) default_l_b default_r_b,
         gen_bin_tree_recursive (height - 1) (r_b root) default_l_b default_r_b] := by
  obtain ⟨k, rfl⟩ : ∃ k, height = k + 2 := ⟨height - 2, by omega⟩
  rfl

theorem claim_C9_defaults_below_root_witness :
    2 ≤ 2 ∧
      gen_bin_tree_recursive 2 1 (fun x => x) (fun x => x) =
        RTree.node 1
          [gen_bin_tree_recursive (2 - 1) 1 default_l_b default_r_b,
           gen_bin_tree_recursive (2 - 1) 1 default_l_b default_r_b] :=
  ⟨by decide, claim_C9_defaults_below_root 2 1 (fun x => x) (fun x => x) (by decide)⟩

/-- C10: for every height <= 0 (negative heights included) and every root
and child functions, the iterative builder terminates and returns the
singleton list holding the bare root: the seeded entry is popped without
appending triples or pushing children. -/
theorem claim_C10_nonpositive_height (height : Int) (root : Int)
    (l_b r_b : Int → Int) (hle : height ≤ 0) :
    gen_bin_tree_iterative height root l_b r_b = [IterEntry.bare root] := by
  unfold gen_bin_tree_iterative
  rw [iterLoop]
  simp only [show ¬height > 0 by omega, if_false]
  rw [iterLoop]

theorem claim_C10_nonpositive_height_witness :
    (-1 : Int) ≤ 0 ∧
      gen_bin_tree_iterative (-1) 7 default_l_b default_r_b = [IterEntry.bare 7] :=
  ⟨by decide, claim_C10_nonpositive_height (-1) 7 default_l_b default_r_b (by decide)⟩
